import Mathlib

/-!
Verification of the veronica backtesting engine.

This file gives a shallow embedding of the core of the repository:

* `src/strategy/strategy.rs`   — the `Score` type and its total order;
* `src/core/decision.rs`       — the `Decision` state machine
  (`calc_portfolio` and its settle / hold / select phases);
* `src/core/backtesting.rs`    — the date-range driver loop;
* `src/dataview/view.rs`       — the indicator transform;
* `src/strategy/bollinger_band.rs` — `analyze` and `settle_check`
  at the level of the fetched indicator-view window.

Modelling conventions:

* `f64` values are modelled as `ℚ` (the arithmetic the claims are about is
  exact: sums, products, divisions by 2 and 3, comparisons).  The `as u32`
  cast of a nonnegative float truncates toward zero and saturates, which is
  `f64_as_u32` below.
* `u32` / `u64` / `usize` quantities are modelled as `ℕ`.  The one place
  where unsigned wrap-around could matter, the `liquidity -= num * price`
  subtraction, is modelled with truncated `ℕ` subtraction; we prove the
  subtraction never underflows, so truncated subtraction, wrapping
  subtraction and exact subtraction coincide there.
* `chrono::NaiveDate` is an order-isomorphic copy of a segment of `ℕ`;
  dates are only ever compared / passed through, so they are modelled as `ℕ`.
* The store (`BackendOp::query`), the crawler stock list and the strategy
  are external collaborators of `Decision`; they are modelled as pure
  functions in `DecisionEnv` (the claims about the decision engine assume
  no store or strategy error).  The two failures `Decision` itself can
  produce on this error-free environment are the `ok_or(BackendRecordNotFound)`
  paths and the `invest_max_per_stock / price` division, which in Rust
  panics when `price = 0`; both are surfaced in the `DError` sum type.
-/

namespace Veronica

/- Batteries marks the `ℚ` field operations `@[irreducible]`, which blocks
kernel evaluation of the concrete instances below; restore the default
reducibility locally so that `decide` can evaluate them. -/
attribute [local semireducible] Rat.add Rat.mul Rat.inv Rat.sub

instance {e a : Type} [DecidableEq e] [DecidableEq a] : DecidableEq (Except e a) := fun x y =>
  match x, y with
  | .ok u, .ok v => if h : u = v then isTrue (by rw [h]) else isFalse (by simp [h])
  | .error u, .error v => if h : u = v then isTrue (by rw [h]) else isFalse (by simp [h])
  | .ok _, .error _ => isFalse (by simp)
  | .error _, .ok _ => isFalse (by simp)

/-! ### Score (src/strategy/strategy.rs, lines 15–55) -/

structure Score where
  point : ℤ
  trading_volume : ℕ
  deriving DecidableEq, Repr

/-- `impl Ord for Score`: compare `point` first, `trading_volume` as
tie-break (both ascending), exactly as `Score::cmp` in the source. -/
def Score.cmp (s t : Score) : Ordering :=
  if s.point ≠ t.point then
    (if s.point < t.point then .lt else .gt)
  else
    (if s.trading_volume < t.trading_volume then .lt
     else if s.trading_volume = t.trading_volume then .eq else .gt)

/-- `s ≤ t` in the `Score` total order (`cmp` does not return `Greater`). -/
def Score.le (s t : Score) : Prop := Score.cmp s t ≠ Ordering.gt

instance : DecidableEq Ordering := fun a b => by
  cases a <;> cases b <;> first | exact isTrue rfl | exact isFalse (by simp)

instance Score.decLe : ∀ s t : Score, Decidable (Score.le s t) := fun s t =>
  inferInstanceAs (Decidable (Score.cmp s t ≠ Ordering.gt))

theorem Score.le_iff (s t : Score) :
    Score.le s t ↔
      s.point < t.point ∨ (s.point = t.point ∧ s.trading_volume ≤ t.trading_volume) := by
  unfold Score.le Score.cmp
  split_ifs <;> simp_all <;> omega

/-! ### Raw records and prices (src/strategy/schema.rs, src/core/decision.rs) -/

structure RawData where
  open_ : ℚ
  high : ℚ
  low : ℚ
  close : ℚ
  spread : ℚ
  date : ℕ
  trading_volume : ℕ
  trading_money : ℕ
  deriving DecidableEq, Repr

/-- `RawData::default()`: all-zero record (date = epoch, modelled as 0). -/
def RawData.default : RawData :=
  { open_ := 0, high := 0, low := 0, close := 0, spread := 0,
    date := 0, trading_volume := 0, trading_money := 0 }

/-- The Rust cast `x as u32` on an `f64`: truncation toward zero,
saturating at the bounds of `u32`. -/
def f64_as_u32 (q : ℚ) : ℕ :=
  if q < 0 then 0 else min (2 ^ 32 - 1) (⌊q⌋.toNat)

/-- The decision engine's price of a record: `((high + low) / 2.0) as u32`. -/
def stock_price (r : RawData) : ℕ := f64_as_u32 ((r.high + r.low) / 2)

/-! ### Decision engine state and environment (src/core/decision.rs, lines 79–98) -/

structure StockInfo where
  stock_id : String
  num : ℕ
  price : ℕ
  deriving DecidableEq, Repr

structure Portfolio where
  date : ℕ
  stocks_selected : List StockInfo
  stocks_hold : List StockInfo
  stocks_settled : List StockInfo
  liquidity : ℕ
  deriving DecidableEq, Repr

/-- One entry of the `stocks_hold: HashMap<String, (NaiveDate, u32)>` map:
`(stock_id, (hold_date, num))`. -/
abbrev HoldEntry := String × ℕ × ℕ

/-- The mutable state of `Decision`. -/
structure DecisionState where
  stocks_hold_num : ℕ
  liquidity : ℕ
  stocks_hold : List HoldEntry
  deriving DecidableEq, Repr

/-- The external collaborators of `Decision`, modelled as pure functions:
the crawler's stock list, `BackendOp::query`, and the two strategy calls.
The claims about the decision engine assume these raise no error. -/
structure DecisionEnv where
  stock_list : List String
  query : String → ℕ → Option RawData
  analyze : String → ℕ → Score
  settle_check : String → ℕ → ℕ → Bool

/-- The failures `Decision` can produce on an error-free environment:
the `ok_or(Error::BackendRecordNotFound)` paths, and the
`invest_max_per_stock / price` division which panics in Rust when
`price = 0` (surfaced here as an explicit failure). -/
inductive DError where
  | backendRecordNotFound
  | dividePanic
  deriving DecidableEq, Repr

/-! ### HashMap operations on the association-list model -/

/-- `HashMap::remove`: the entry with the given key disappears. -/
def eraseKey (sid : String) (l : List HoldEntry) : List HoldEntry :=
  l.filter (fun e => e.1 ≠ sid)

/-- `HashMap::insert`: replace the entry if the key is present, else add it. -/
def insertKey (sid : String) (v : ℕ × ℕ) (l : List HoldEntry) : List HoldEntry :=
  if l.any (fun e => e.1 = sid) then
    l.map (fun e => if e.1 = sid then (sid, v) else e)
  else
    l ++ [(sid, v)]

/-- `HashMap::get`, as `(hold_date, num)`. -/
def lookupKey (sid : String) (l : List HoldEntry) : Option (ℕ × ℕ) :=
  (l.find? (fun e => e.1 = sid)).map (·.2)

/-- Σ `num * price` over a list of stock entries (buy cost / sell proceeds). -/
def sumCost (l : List StockInfo) : ℕ := (l.map (fun i => i.num * i.price)).sum

/-! ### The four phases of `calc_portfolio` (src/core/decision.rs, lines 99–223) -/

/-- The ranking relation used by
`stock_scores.sort_by(|lhs, rhs| rhs.1.cmp(&lhs.1))`: a stable sort by
this comparator puts `a` before `b` exactly when `Score.le b.2 a.2`, i.e.
scores descending. -/
def score_desc (a b : String × Score) : Prop := Score.le b.2 a.2

instance : DecidableRel score_desc := fun a b => Score.decLe b.2 a.2

instance : IsTotal (String × Score) score_desc where
  total a b := by
    simp only [score_desc, Score.le_iff]
    omega

instance : IsTrans (String × Score) score_desc where
  trans a b c hab hbc := by
    simp only [score_desc, Score.le_iff] at *
    omega

/-- The selection loop of `get_select_stocks` over the ranked list:
stop at capacity, stop at the first non-positive `point`, skip symbols
already held.  `sel_count` is the number of symbols selected so far. -/
def select_loop (hold_ids : List String) (cap : ℕ) (sel_count : ℕ) :
    List (String × Score) → List String
  | [] => []
  | (sid, sc) :: rest =>
    if hold_ids.length + sel_count = cap then []
    else if sc.point ≤ 0 then []
    else if sid ∈ hold_ids then select_loop hold_ids cap sel_count rest
    else sid :: select_loop hold_ids cap (sel_count + 1) rest

/-- `Decision::get_select_stocks`: score the whole stock list, sort by
score descending (Rust `sort_by` is a stable sort; over the total preorder
`score_desc` the stable insertion sort below produces the identical list),
then run the selection loop. -/
def get_select_stocks (env : DecisionEnv) (cap : ℕ) (holds : List HoldEntry)
    (assess_date : ℕ) : List String :=
  let stock_scores := env.stock_list.map (fun sid => (sid, env.analyze sid assess_date))
  let sorted := stock_scores.insertionSort score_desc
  select_loop (holds.map (·.1)) cap 0 sorted

/-- `Decision::get_settle_stocks`: the held symbols whose `settle_check`
says to exit. -/
def get_settle_stocks (env : DecisionEnv) (holds : List HoldEntry)
    (assess_date : ℕ) : List String :=
  (holds.filter (fun e => env.settle_check e.1 e.2.1 assess_date)).map (·.1)

/-- The loop body of `Decision::handle_settle_stocks`: for each symbol to
settle, look its quantity up in the holdings, fetch the record at
`assess_date` (`ok_or(BackendRecordNotFound)`), credit
`liquidity += num * price`, record the settled stock, remove the holding. -/
def settle_fold (env : DecisionEnv) (assess_date : ℕ) :
    List String → ℕ → List HoldEntry → List StockInfo →
    Except DError (ℕ × List HoldEntry × List StockInfo)
  | [], liq, holds, acc => .ok (liq, holds, acc)
  | sid :: rest, liq, holds, acc =>
    match lookupKey sid holds with
    | none => .error .backendRecordNotFound
    | some (_, num) =>
      match env.query sid assess_date with
      | none => .error .backendRecordNotFound
      | some record =>
        let price := stock_price record
        settle_fold env assess_date rest (liq + num * price) (eraseKey sid holds)
          (acc ++ [{ stock_id := sid, num := num, price := price }])

/-- `Decision::handle_hold_stocks`: mark every remaining holding to market
at `assess_date`; a missing record is replaced by the all-zero
`RawData::default()` (the `get_or_insert` fallback). -/
def handle_hold_stocks (env : DecisionEnv) (assess_date : ℕ)
    (holds : List HoldEntry) : List StockInfo :=
  holds.map (fun e =>
    let record := (env.query e.1 assess_date).getD RawData.default
    { stock_id := e.1, num := e.2.2, price := stock_price record })

/-- The loop body of `Decision::handle_selected_stocks`: for each selected
symbol fetch the record (`ok_or(BackendRecordNotFound)`), compute
`num = invest / price` (a Rust panic when `price = 0`), debit
`liquidity -= num * price`, insert the holding. -/
def buy_fold (env : DecisionEnv) (assess_date : ℕ) (invest : ℕ) :
    List String → ℕ → List HoldEntry → List StockInfo →
    Except DError (ℕ × List HoldEntry × List StockInfo)
  | [], liq, holds, acc => .ok (liq, holds, acc)
  | sid :: rest, liq, holds, acc =>
    match env.query sid assess_date with
    | none => .error .backendRecordNotFound
    | some record =>
      let price := stock_price record
      if price = 0 then .error .dividePanic
      else
        let num := invest / price
        buy_fold env assess_date invest rest (liq - num * price)
          (insertKey sid (assess_date, num) holds)
          (acc ++ [{ stock_id := sid, num := num, price := price }])

/-- `Decision::handle_selected_stocks`: rank and select, then — if anything
was selected — spend `invest_max_per_stock = liquidity / count(selected)`
per symbol, computed once from the liquidity at phase start. -/
def handle_selected_stocks (env : DecisionEnv) (assess_date : ℕ) (cap : ℕ)
    (liq : ℕ) (holds : List HoldEntry) :
    Except DError (ℕ × List HoldEntry × List StockInfo) :=
  let stocks_selected := get_select_stocks env cap holds assess_date
  if stocks_selected.isEmpty then .ok (liq, holds, [])
  else
    let invest_max_per_stock := liq / stocks_selected.length
    buy_fold env assess_date invest_max_per_stock stocks_selected liq holds []

/-- `Decision::has_trading_data`: every currently held symbol has a record
at `assess_date`. -/
def has_trading_data (env : DecisionEnv) (s : DecisionState) (assess_date : ℕ) : Bool :=
  s.stocks_hold.all (fun e => (env.query e.1 assess_date).isSome)

/-- `Decision::calc_portfolio`: precondition, then settle → hold → select,
returning the snapshot and the updated engine state.  When the
precondition fails the call returns no snapshot and the state untouched. -/
def calc_portfolio (env : DecisionEnv) (s : DecisionState) (assess_date : ℕ) :
    Except DError (Option Portfolio × DecisionState) :=
  if has_trading_data env s assess_date = false then .ok (none, s)
  else
    match settle_fold env assess_date (get_settle_stocks env s.stocks_hold assess_date)
        s.liquidity s.stocks_hold [] with
    | .error e => .error e
    | .ok (liq1, holds1, settled) =>
      let hold_infos := handle_hold_stocks env assess_date holds1
      match handle_selected_stocks env assess_date s.stocks_hold_num liq1 holds1 with
      | .error e => .error e
      | .ok (liq2, holds2, sel_infos) =>
        .ok (some { date := assess_date, stocks_selected := sel_infos,
                    stocks_hold := hold_infos, stocks_settled := settled,
                    liquidity := liq2 },
             { stocks_hold_num := s.stocks_hold_num, liquidity := liq2,
               stocks_hold := holds2 })

/-- The holdings left after the settle phase of one `calc_portfolio` call:
the symbols `get_settle_stocks` picked, removed one by one. -/
def settle_holds (env : DecisionEnv) (s : DecisionState) (d : ℕ) : List HoldEntry :=
  (get_settle_stocks env s.stocks_hold d).foldl (fun h sid => eraseKey sid h) s.stocks_hold

/-- The driver loop of `Backtesting::run` (src/core/backtesting.rs,
lines 72–93): call `calc_portfolio` once per date, accumulate the
non-empty snapshots, abort on error (the Rust driver `unwrap`s). -/
def run_dates (env : DecisionEnv) :
    List ℕ → DecisionState → Except DError (DecisionState × List Portfolio)
  | [], s => .ok (s, [])
  | d :: rest, s =>
    match calc_portfolio env s d with
    | .error e => .error e
    | .ok (none, s') => run_dates env rest s'
    | .ok (some p, s') =>
      match run_dates env rest s' with
      | .error e => .error e
      | .ok (sf, ps) => .ok (sf, p :: ps)

/-! ### Indicator views (src/dataview/view.rs, src/strategy/bollinger_band.rs) -/

/-- `bollinger_band::PERIOD`. -/
def PERIOD : ℕ := 30

/-- `bollinger_band::ANALYZE_RANGE`. -/
def ANALYZE_RANGE : ℕ := 8

/-- `bollinger_band::BAND_SIZE`. -/
def BAND_SIZE : ℕ := 2

structure BollingerBandView where
  open_ : ℚ
  high : ℚ
  low : ℚ
  close : ℚ
  date : ℕ
  volume : ℕ
  sma : ℚ
  sd : ℚ
  deriving DecidableEq, Repr

/-- The representative price `(high + low + close) / 3.0` of a view. -/
def rep_price (v : BollingerBandView) : ℚ := (v.high + v.low + v.close) / 3

/-- The loop of `BollingerBandView::transform`: one pass over the records
with a running index; the view built from the record at index `idx`
carries the statistics of the prefix `records[0..=idx]` consumed so far
(the `ta` streaming indicators are deterministic state machines, hence
functions of the consumed prefix — they live outside this repository, so
they are parameters `smaF`, `sdF` here), and is pushed only once
`idx + 1 ≥ PERIOD`. -/
def transform_go (smaF sdF : List RawData → ℚ) (full : List RawData) :
    ℕ → List RawData → List BollingerBandView
  | _, [] => []
  | idx, record :: rest =>
    let view : BollingerBandView :=
      { open_ := record.open_, high := record.high, low := record.low,
        close := record.close, date := record.date, volume := record.trading_volume,
        sma := smaF (full.take (idx + 1)), sd := sdF (full.take (idx + 1)) }
    if PERIOD ≤ idx + 1 then view :: transform_go smaF sdF full (idx + 1) rest
    else transform_go smaF sdF full (idx + 1) rest

/-- `BollingerBandView::transform` (src/dataview/view.rs, lines 61–85). -/
def transform (smaF sdF : List RawData → ℚ) (records : List RawData) :
    List BollingerBandView :=
  transform_go smaF sdF records 0 records

/-- The weighted price `low + (high - low) * 0.75` of `settle_check`. -/
def weighted_price (v : BollingerBandView) : ℚ := v.low + (v.high - v.low) * (3 / 4)

/-- `bollinger_band`'s `CONT_LOW_LIMIT`. -/
def CONT_LOW_LIMIT : ℕ := 3

/-- The backward scan of `Strategy::settle_check`: walk the views from the
most recent one, break at the first view whose weighted price is at or
above `sma + sd`, return true as soon as the count of consecutive low
views reaches `CONT_LOW_LIMIT`. -/
def settle_loop : List BollingerBandView → ℕ → Bool
  | [], _ => false
  | v :: rest, count =>
    if v.sma + v.sd ≤ weighted_price v then false
    else if count + 1 = CONT_LOW_LIMIT then true
    else settle_loop rest (count + 1)

/-- `Strategy::settle_check` (src/strategy/bollinger_band.rs, lines
104–136), at the level of the view window fetched by `get_views` over
`[hold_date, assess_date]`: the guards on the window, then the backward
scan. -/
def settle_check_views (views : List BollingerBandView) (assess_date : ℕ) : Bool :=
  if views.length = 0 then false
  else if views.getLast?.map (·.date) ≠ some assess_date then false
  else settle_loop views.reverse 0

/-- The in-buy-zone test of `Strategy::analyze`:
`price >= sma + sd && price <= sma + BAND_SIZE * sd`. -/
def in_buy_zone (v : BollingerBandView) : Bool :=
  decide (v.sma + v.sd ≤ rep_price v) && decide (rep_price v ≤ v.sma + (BAND_SIZE : ℚ) * v.sd)

/-- The backward scan of `Strategy::analyze` over the reversed view list:
reject (`none`, i.e. the neutral score) on a zero representative price or
on a standard deviation rising while walking backward; count the in-zone
days; once `ANALYZE_RANGE` views are consumed produce
`(in_buy_zone_ratio, rise_ratio)` — both percentages, exactly as in the
source. -/
def analyze_loop (last_view : BollingerBandView) :
    List BollingerBandView → ℚ → ℕ → ℕ → Option (ℚ × ℚ)
  | [], _, _, _ => none
  | v :: rest, tmp_sd, total_count, zone_count =>
    if rep_price v = 0 then none
    else if tmp_sd < v.sd then none
    else
      let total' := total_count + 1
      let zone' := if in_buy_zone v then zone_count + 1 else zone_count
      if total' = ANALYZE_RANGE then
        some ((zone' : ℚ) / (total' : ℚ) * 100,
              (last_view.sma - v.sma) / v.sma * 100)
      else analyze_loop last_view rest v.sd total' zone'

/-- The Rust cast `x as i64` on an `f64`: truncation toward zero
(saturation at the `i64` bounds is out of reach for the values here and
not modelled). -/
def f64_as_i64 (q : ℚ) : ℤ := if q < 0 then -⌊-q⌋ else ⌊q⌋

/-- `Strategy::analyze` (src/strategy/bollinger_band.rs, lines 44–102), at
the level of the view window fetched by `get_views`: the window guards,
the backward scan, then — for a positive rise ratio — the score
`point = (in_buy_zone_ratio * rise_ratio) as i64`,
`trading_volume = last view's volume`. -/
def analyze_views (views : List BollingerBandView) (assess_date : ℕ) : Score :=
  if views.length < ANALYZE_RANGE then { point := 0, trading_volume := 0 }
  else
    match views.getLast? with
    | none => { point := 0, trading_volume := 0 }
    | some last_view =>
      if last_view.date ≠ assess_date then { point := 0, trading_volume := 0 }
      else
        match analyze_loop last_view views.reverse last_view.sd 0 0 with
        | none => { point := 0, trading_volume := 0 }
        | some (in_buy_zone_ratio, rise_ratio) =>
          if rise_ratio ≤ 0 then { point := 0, trading_volume := 0 }
          else { point := f64_as_i64 (in_buy_zone_ratio * rise_ratio),
                 trading_volume := last_view.volume }

/-- Rounding half-up of a rational to an integer, the reading of `round`
in the specification's `point = round(in_buy_zone_ratio · rise_ratio)`. -/
def round_rat (q : ℚ) : ℤ := ⌊q + 1 / 2⌋

/-! ### Concrete instances used by witnesses and counterexamples -/

/-- The worked example of spec §8: liquidity 20, capacity unreached, two
candidates `"A"` (record high = low = 4, score point 4) and `"B"`
(record high = low = 8, score point 2). -/
def envEx : DecisionEnv :=
  { stock_list := ["A", "B"]
    query := fun sid _ =>
      if sid = "A" then some { RawData.default with high := 4, low := 4 }
      else if sid = "B" then some { RawData.default with high := 8, low := 8 }
      else none
    analyze := fun sid _ =>
      if sid = "A" then { point := 4, trading_volume := 0 }
      else if sid = "B" then { point := 2, trading_volume := 0 }
      else { point := 0, trading_volume := 0 }
    settle_check := fun _ _ _ => false }

def sEx : DecisionState := { stocks_hold_num := 5, liquidity := 20, stocks_hold := [] }

/-- The snapshot `calc_portfolio envEx sEx 1` produces. -/
def pEx : Portfolio :=
  { date := 1
    stocks_selected := [{ stock_id := "A", num := 2, price := 4 },
                        { stock_id := "B", num := 1, price := 8 }]
    stocks_hold := []
    stocks_settled := []
    liquidity := 4 }

/-- The engine state after `calc_portfolio envEx sEx 1`. -/
def s1Ex : DecisionState :=
  { stocks_hold_num := 5, liquidity := 4, stocks_hold := [("A", 1, 2), ("B", 1, 1)] }

/-- A state holding two shares of `"A"` bought at date 0. -/
def sHold : DecisionState :=
  { stocks_hold_num := 5, liquidity := 0, stocks_hold := [("A", 0, 2)] }

/-- An environment whose only symbol `"A"` has a positive score but no
record in the store at any date. -/
def envC3 : DecisionEnv :=
  { stock_list := ["A"]
    query := fun _ _ => none
    analyze := fun _ _ => { point := 1, trading_volume := 0 }
    settle_check := fun _ _ _ => false }

def sC3 : DecisionState := { stocks_hold_num := 5, liquidity := 10, stocks_hold := [] }

/-- A two-view window whose first SMA (10) exceeds its last SMA (5) but
whose last view's weighted price (20) is at or above `sma + sd` (6), so
the backward scan of `settle_check` stops immediately.  (Such a window is
reachable: the means of two overlapping 30-record windows may drop from
10 to 5, and the weighted price uses `high`/`low`, free of the
representative price that feeds `sma`/`sd`.) -/
def vC2a : BollingerBandView :=
  { open_ := 0, high := 0, low := 0, close := 0, date := 1, volume := 0, sma := 10, sd := 5 }

def vC2b : BollingerBandView :=
  { open_ := 0, high := 20, low := 20, close := -22, date := 2, volume := 0, sma := 5, sd := 1 }

def viewsC2 : List BollingerBandView := [vC2a, vC2b]

/-- One view of the `analyze` example window: flat bands (`sd = 1`), the
day's prices all equal to `price`, so the representative price is
`price`. -/
def viewC6 (dt : ℕ) (sma price : ℚ) : BollingerBandView :=
  { open_ := 0, high := price, low := price, close := price,
    date := dt, volume := 7, sma := sma, sd := 1 }

/-- An eight-view window that passes the volatility filter: four views in
the buy zone (ratio 1/2), SMA rising from 100 to 103 (rise ratio 3%). -/
def viewsC6 : List BollingerBandView :=
  [viewC6 1 100 101, viewC6 2 100 101, viewC6 3 100 101, viewC6 4 100 101,
   viewC6 5 100 100, viewC6 6 100 100, viewC6 7 100 100, viewC6 8 103 103]

/-! ### Lemmas about the selection loop and the ranking -/

theorem select_loop_sublist (hold_ids : List String) (cap k : ℕ) :
    ∀ l : List (String × Score), (select_loop hold_ids cap k l).Sublist (l.map Prod.fst)
  | [] => by simp [select_loop]
  | (sid, sc) :: rest => by
    unfold select_loop
    split_ifs with h1 h2 h3
    · exact List.nil_sublist _
    · exact List.nil_sublist _
    · exact (select_loop_sublist hold_ids cap k rest).cons _
    · exact (select_loop_sublist hold_ids cap (k + 1) rest).cons₂ _

theorem select_loop_mem (hold_ids : List String) (cap k : ℕ) :
    ∀ l : List (String × Score), ∀ sid ∈ select_loop hold_ids cap k l,
      ∃ sc : Score, (sid, sc) ∈ l ∧ 0 < sc.point ∧ sid ∉ hold_ids
  | [] => by simp [select_loop]
  | (sid', sc') :: rest => by
    intro sid hmem
    unfold select_loop at hmem
    split_ifs at hmem with h1 h2 h3
    · simp at hmem
    · simp at hmem
    · obtain ⟨sc, h⟩ := select_loop_mem hold_ids cap k rest sid hmem
      exact ⟨sc, List.mem_cons_of_mem _ h.1, h.2⟩
    · rcases List.mem_cons.1 hmem with h | h
      · subst h
        exact ⟨sc', List.mem_cons_self _ _, by omega, h3⟩
      · obtain ⟨sc, h⟩ := select_loop_mem hold_ids cap (k + 1) rest sid h
        exact ⟨sc, List.mem_cons_of_mem _ h.1, h.2⟩

theorem select_loop_length (hold_ids : List String) (cap : ℕ) :
    ∀ (l : List (String × Score)) (k : ℕ), hold_ids.length + k ≤ cap →
      hold_ids.length + k + (select_loop hold_ids cap k l).length ≤ cap
  | [], k, hk => by simpa [select_loop] using hk
  | (sid', sc') :: rest, k, hk => by
    unfold select_loop
    split_ifs with h1 h2 h3
    · simpa using hk
    · simpa using hk
    · exact select_loop_length hold_ids cap rest k hk
    · have := select_loop_length hold_ids cap rest (k + 1) (by omega)
      simp only [List.length_cons]
      omega

/-- Every entry of the scored list carries the score `analyze` assigns to
its symbol, and so does every entry of its (permuted) sorted version. -/
theorem sorted_scores_mem (env : DecisionEnv) (d : ℕ) (x : String × Score)
    (hx : x ∈ (env.stock_list.map (fun sid => (sid, env.analyze sid d))).insertionSort score_desc) :
    x.2 = env.analyze x.1 d := by
  have hperm := List.perm_insertionSort score_desc
    (env.stock_list.map (fun sid => (sid, env.analyze sid d)))
  have hx' := hperm.mem_iff.1 hx
  obtain ⟨sid, _, rfl⟩ := List.mem_map.1 hx'
  rfl

/-- The selected symbols, in output order, have non-increasing scores
under the `(point, trading_volume)` lexicographic order. -/
theorem get_select_stocks_pairwise (env : DecisionEnv) (cap : ℕ)
    (holds : List HoldEntry) (d : ℕ) :
    (get_select_stocks env cap holds d).Pairwise
      (fun a b => Score.le (env.analyze b d) (env.analyze a d)) := by
  set scores := env.stock_list.map (fun sid => (sid, env.analyze sid d)) with hscores
  have hsorted : (scores.insertionSort score_desc).Pairwise score_desc :=
    List.sorted_insertionSort score_desc scores
  have hpw : (scores.insertionSort score_desc).Pairwise
      (fun a b : String × Score => Score.le (env.analyze b.1 d) (env.analyze a.1 d)) := by
    refine hsorted.imp_of_mem ?_
    intro a b ha hb hab
    have ha2 := sorted_scores_mem env d a ha
    have hb2 := sorted_scores_mem env d b hb
    simpa [score_desc, ← ha2, ← hb2] using hab
  have hmap : ((scores.insertionSort score_desc).map Prod.fst).Pairwise
      (fun a b : String => Score.le (env.analyze b d) (env.analyze a d)) :=
    List.pairwise_map.2 hpw
  exact List.Pairwise.sublist (select_loop_sublist _ _ _ _) hmap

theorem get_select_stocks_mem (env : DecisionEnv) (cap : ℕ)
    (holds : List HoldEntry) (d : ℕ) (sid : String)
    (h : sid ∈ get_select_stocks env cap holds d) :
    0 < (env.analyze sid d).point ∧ sid ∉ holds.map (·.1) := by
  obtain ⟨sc, hmem, hpt, hnh⟩ := select_loop_mem _ _ _ _ sid h
  have := sorted_scores_mem env d (sid, sc) hmem
  simp only at this
  subst this
  exact ⟨hpt, hnh⟩

theorem get_select_stocks_length (env : DecisionEnv) (cap : ℕ)
    (holds : List HoldEntry) (d : ℕ) (hle : holds.length ≤ cap) :
    holds.length + (get_select_stocks env cap holds d).length ≤ cap := by
  have := select_loop_length (holds.map (·.1)) cap
    ((env.stock_list.map (fun sid => (sid, env.analyze sid d))).insertionSort score_desc)
    0 (by simpa using hle)
  simpa [get_select_stocks] using this

/-! ### Lemmas about the settle and buy folds -/

theorem sumCost_nil : sumCost [] = 0 := rfl


theorem settle_fold_liq (env : DecisionEnv) (d : ℕ) :
    ∀ (ids : List String) (liq : ℕ) (holds : List HoldEntry) (acc : List StockInfo)
      (L : ℕ) (H : List HoldEntry) (A : List StockInfo),
      settle_fold env d ids liq holds acc = .ok (L, H, A) →
      L + sumCost acc = liq + sumCost A
  | [], liq, holds, acc, L, H, A => by
    intro h
    simp only [settle_fold, Except.ok.injEq, Prod.mk.injEq] at h
    obtain ⟨rfl, rfl, rfl⟩ := h
    omega
  | sid :: rest, liq, holds, acc, L, H, A => by
    intro h
    unfold settle_fold at h
    cases hl : lookupKey sid holds with
    | none => simp [hl] at h
    | some v =>
      cases hq : env.query sid d with
      | none => simp [hl, hq] at h
      | some record =>
        simp only [hl, hq] at h
        have ih := settle_fold_liq env d rest (liq + v.2 * stock_price record)
          (eraseKey sid holds)
          (acc ++ [{ stock_id := sid, num := v.2, price := stock_price record }]) L H A h
        simp only [sumCost, List.map_append, List.sum_append, List.map_cons, List.map_nil,
          List.sum_cons, List.sum_nil] at ih ⊢
        omega

theorem settle_fold_holds (env : DecisionEnv) (d : ℕ) :
    ∀ (ids : List String) (liq : ℕ) (holds : List HoldEntry) (acc : List StockInfo)
      (L : ℕ) (H : List HoldEntry) (A : List StockInfo),
      settle_fold env d ids liq holds acc = .ok (L, H, A) →
      H = ids.foldl (fun h sid => eraseKey sid h) holds
  | [], liq, holds, acc, L, H, A => by
    intro h
    simp only [settle_fold, Except.ok.injEq, Prod.mk.injEq] at h
    simp [h.2.1.symm]
  | sid :: rest, liq, holds, acc, L, H, A => by
    intro h
    unfold settle_fold at h
    cases hl : lookupKey sid holds with
    | none => simp [hl] at h
    | some v =>
      cases hq : env.query sid d with
      | none => simp [hl, hq] at h
      | some record =>
        simp only [hl, hq] at h
        simpa using settle_fold_holds env d rest _ _ _ L H A h

theorem settle_fold_sublist (env : DecisionEnv) (d : ℕ) :
    ∀ (ids : List String) (liq : ℕ) (holds : List HoldEntry) (acc : List StockInfo)
      (L : ℕ) (H : List HoldEntry) (A : List StockInfo),
      settle_fold env d ids liq holds acc = .ok (L, H, A) →
      H.Sublist holds
  | [], liq, holds, acc, L, H, A => by
    intro h
    simp only [settle_fold, Except.ok.injEq, Prod.mk.injEq] at h
    obtain ⟨-, rfl, -⟩ := h
    exact List.Sublist.refl holds
  | sid :: rest, liq, holds, acc, L, H, A => by
    intro h
    unfold settle_fold at h
    cases hl : lookupKey sid holds with
    | none => simp [hl] at h
    | some v =>
      cases hq : env.query sid d with
      | none => simp [hl, hq] at h
      | some record =>
        simp only [hl, hq] at h
        exact (settle_fold_sublist env d rest _ _ _ L H A h).trans
          (List.filter_sublist holds)

theorem buy_fold_liq (env : DecisionEnv) (d : ℕ) (invest : ℕ) :
    ∀ (ids : List String) (liq : ℕ) (holds : List HoldEntry) (acc : List StockInfo)
      (L : ℕ) (H : List HoldEntry) (A : List StockInfo),
      ids.length * invest ≤ liq →
      buy_fold env d invest ids liq holds acc = .ok (L, H, A) →
      L + sumCost A = liq + sumCost acc
  | [], liq, holds, acc, L, H, A => by
    intro _ h
    simp only [buy_fold, Except.ok.injEq, Prod.mk.injEq] at h
    obtain ⟨rfl, rfl, rfl⟩ := h
    omega
  | sid :: rest, liq, holds, acc, L, H, A => by
    intro hinv h
    unfold buy_fold at h
    cases hq : env.query sid d with
    | none => simp [hq] at h
    | some record =>
      simp only [hq] at h
      split_ifs at h with hp
      have hcost : invest / stock_price record * stock_price record ≤ invest :=
        Nat.div_mul_le_self invest (stock_price record)
      have hinv' : invest ≤ liq := by
        have : 1 * invest ≤ (sid :: rest).length * invest :=
          Nat.mul_le_mul_right invest (by simp)
        simpa using this.trans hinv
      have ih := buy_fold_liq env d invest rest
        (liq - invest / stock_price record * stock_price record)
        (insertKey sid (d, invest / stock_price record) holds)
        (acc ++ [{ stock_id := sid, num := invest / stock_price record,
                   price := stock_price record }]) L H A
        (by
          have hsm : (rest.length + 1) * invest = rest.length * invest + invest := by ring
          simp only [List.length_cons] at hinv
          omega) h
      simp only [sumCost, List.map_append, List.sum_append, List.map_cons, List.map_nil,
        List.sum_cons, List.sum_nil] at ih ⊢
      omega

theorem buy_fold_ids (env : DecisionEnv) (d : ℕ) (invest : ℕ) :
    ∀ (ids : List String) (liq : ℕ) (holds : List HoldEntry) (acc : List StockInfo)
      (L : ℕ) (H : List HoldEntry) (A : List StockInfo),
      buy_fold env d invest ids liq holds acc = .ok (L, H, A) →
      A.map (·.stock_id) = acc.map (·.stock_id) ++ ids
  | [], liq, holds, acc, L, H, A => by
    intro h
    simp only [buy_fold, Except.ok.injEq, Prod.mk.injEq] at h
    obtain ⟨-, -, rfl⟩ := h
    simp
  | sid :: rest, liq, holds, acc, L, H, A => by
    intro h
    unfold buy_fold at h
    cases hq : env.query sid d with
    | none => simp [hq] at h
    | some record =>
      simp only [hq] at h
      split_ifs at h with hp
      have ih := buy_fold_ids env d invest rest _ _ _ L H A h
      simpa using ih

theorem buy_fold_num (env : DecisionEnv) (d : ℕ) (invest : ℕ) :
    ∀ (ids : List String) (liq : ℕ) (holds : List HoldEntry) (acc : List StockInfo)
      (L : ℕ) (H : List HoldEntry) (A : List StockInfo),
      buy_fold env d invest ids liq holds acc = .ok (L, H, A) →
      ∀ i ∈ A, i ∈ acc ∨ (i.num = invest / i.price ∧ 0 < i.price)
  | [], liq, holds, acc, L, H, A => by
    intro h
    simp only [buy_fold, Except.ok.injEq, Prod.mk.injEq] at h
    obtain ⟨-, -, rfl⟩ := h
    exact fun i hi => Or.inl hi
  | sid :: rest, liq, holds, acc, L, H, A => by
    intro h
    unfold buy_fold at h
    cases hq : env.query sid d with
    | none => simp [hq] at h
    | some record =>
      simp only [hq] at h
      split_ifs at h with hp
      intro i hi
      have ih := buy_fold_num env d invest rest _ _ _ L H A h i hi
      rcases ih with hin | hnew
      · rcases List.mem_append.1 hin with hin | hin
        · exact Or.inl hin
        · simp only [List.mem_singleton] at hin
          subst hin
          exact Or.inr ⟨rfl, Nat.pos_of_ne_zero hp⟩
      · exact Or.inr hnew

theorem insertKey_length (sid : String) (v : ℕ × ℕ) (l : List HoldEntry) :
    (insertKey sid v l).length ≤ l.length + 1 := by
  unfold insertKey
  split_ifs <;> simp

theorem buy_fold_holds_length (env : DecisionEnv) (d : ℕ) (invest : ℕ) :
    ∀ (ids : List String) (liq : ℕ) (holds : List HoldEntry) (acc : List StockInfo)
      (L : ℕ) (H : List HoldEntry) (A : List StockInfo),
      buy_fold env d invest ids liq holds acc = .ok (L, H, A) →
      H.length ≤ holds.length + ids.length
  | [], liq, holds, acc, L, H, A => by
    intro h
    simp only [buy_fold, Except.ok.injEq, Prod.mk.injEq] at h
    obtain ⟨-, rfl, -⟩ := h
    simp
  | sid :: rest, liq, holds, acc, L, H, A => by
    intro h
    unfold buy_fold at h
    cases hq : env.query sid d with
    | none => simp [hq] at h
    | some record =>
      simp only [hq] at h
      split_ifs at h with hp
      have ih := buy_fold_holds_length env d invest rest _ _ _ L H A h
      have := insertKey_length sid (d, invest / stock_price record) holds
      simp only [List.length_cons]
      omega

/-! ### Inversion of `calc_portfolio` -/

/-- Unfolding an `.ok (some _, _)` result of `calc_portfolio` into its
three phases. -/
theorem calc_portfolio_inv (env : DecisionEnv) (s : DecisionState) (d : ℕ)
    (p : Portfolio) (s' : DecisionState)
    (h : calc_portfolio env s d = .ok (some p, s')) :
    has_trading_data env s d = true ∧
    ∃ liq1 holds1 settled liq2 holds2 sel_infos,
      settle_fold env d (get_settle_stocks env s.stocks_hold d)
          s.liquidity s.stocks_hold [] = .ok (liq1, holds1, settled) ∧
      handle_selected_stocks env d s.stocks_hold_num liq1 holds1 =
        .ok (liq2, holds2, sel_infos) ∧
      p = { date := d, stocks_selected := sel_infos,
            stocks_hold := handle_hold_stocks env d holds1,
            stocks_settled := settled, liquidity := liq2 } ∧
      s' = { stocks_hold_num := s.stocks_hold_num, liquidity := liq2,
             stocks_hold := holds2 } := by
  unfold calc_portfolio at h
  split_ifs at h with htd
  · simp at h
  · have htd' : has_trading_data env s d = true := by
      revert htd
      cases has_trading_data env s d <;> simp
    refine ⟨htd', ?_⟩
    cases hst : settle_fold env d (get_settle_stocks env s.stocks_hold d)
        s.liquidity s.stocks_hold [] with
    | error e => simp [hst] at h
    | ok v =>
      obtain ⟨liq1, holds1, settled⟩ := v
      simp only [hst] at h
      cases hsel : handle_selected_stocks env d s.stocks_hold_num liq1 holds1 with
      | error e => simp [hsel] at h
      | ok w =>
        obtain ⟨liq2, holds2, sel_infos⟩ := w
        simp only [hsel, Except.ok.injEq, Prod.mk.injEq, Option.some.injEq] at h
        exact ⟨liq1, holds1, settled, liq2, holds2, sel_infos, rfl, hsel,
          h.1.symm, h.2.symm⟩

/-- Unfolding an `.ok` result of `handle_selected_stocks`: either nothing
was selected, or the buy loop ran on the selected list with the one-shot
`invest_max_per_stock`. -/
theorem handle_selected_stocks_inv (env : DecisionEnv) (d : ℕ) (cap liq : ℕ)
    (holds : List HoldEntry) (L : ℕ) (H : List HoldEntry) (A : List StockInfo)
    (h : handle_selected_stocks env d cap liq holds = .ok (L, H, A)) :
    (get_select_stocks env cap holds d = [] ∧ L = liq ∧ H = holds ∧ A = []) ∨
    (get_select_stocks env cap holds d ≠ [] ∧
      buy_fold env d (liq / (get_select_stocks env cap holds d).length)
        (get_select_stocks env cap holds d) liq holds [] = .ok (L, H, A)) := by
  simp only [handle_selected_stocks] at h
  split_ifs at h with he
  · simp only [Except.ok.injEq, Prod.mk.injEq] at h
    exact Or.inl ⟨List.isEmpty_iff.1 he, h.1.symm, h.2.1.symm, h.2.2.symm⟩
  · exact Or.inr ⟨fun hne => by simp [hne] at he, h⟩

/-! ### Claim theorems: liquidity accounting (C1, C4, C9) -/

/-- C1.  Liquidity conservation: on every assessment date on which
`calc_portfolio` returns a snapshot, the liquidity recorded in the
snapshot equals the liquidity before the call minus Σ `num·price` over
`stocks_selected` plus Σ `num·price` over `stocks_settled`, exactly; and
the state's liquidity after the call is the snapshot's, so no other part
of the call changes liquidity (the `None` case leaves the state
untouched, see `calc_portfolio_none_state`). -/
theorem liquidity_conservation (env : DecisionEnv) (s : DecisionState) (d : ℕ)
    (p : Portfolio) (s' : DecisionState)
    (h : calc_portfolio env s d = .ok (some p, s')) :
    (p.liquidity : ℤ) =
      (s.liquidity : ℤ) - (sumCost p.stocks_selected : ℤ) +
        (sumCost p.stocks_settled : ℤ) ∧
    s'.liquidity = p.liquidity := by
  obtain ⟨htd, liq1, holds1, settled, liq2, holds2, sel, hst, hsel, hp, hs'⟩ :=
    calc_portfolio_inv env s d p s' h
  subst hp hs'
  dsimp only
  have h1 := settle_fold_liq env d _ _ _ _ _ _ _ hst
  rw [sumCost_nil] at h1
  rcases handle_selected_stocks_inv env d _ _ _ _ _ _ hsel with
    ⟨hsel0, rfl, rfl, rfl⟩ | ⟨hne, hbuy⟩
  · rw [sumCost_nil]
    omega
  · have hinv : (get_select_stocks env s.stocks_hold_num holds1 d).length *
        (liq1 / (get_select_stocks env s.stocks_hold_num holds1 d).length) ≤ liq1 := by
      rw [Nat.mul_comm]
      exact Nat.div_mul_le_self liq1 _
    have h2 := buy_fold_liq env d _ _ _ _ _ _ _ _ hinv hbuy
    rw [sumCost_nil] at h2
    omega

theorem liquidity_conservation_witness :
    (pEx.liquidity : ℤ) =
      (sEx.liquidity : ℤ) - (sumCost pEx.stocks_selected : ℤ) +
        (sumCost pEx.stocks_settled : ℤ) ∧
    s1Ex.liquidity = pEx.liquidity :=
  liquidity_conservation envEx sEx 1 pEx s1Ex (by decide)

/-- C4.  `invest_max_per_stock` is the liquidity at the start of the
selection phase (= liquidity before the call plus the settle proceeds)
integer-divided by the number of finally selected symbols, computed once;
each selected quantity is the integer floor of it divided by that symbol's
price.  The claim's worked example (liquidity 20, prices 4 and 8,
quantities 2 and 1, final liquidity 4) is the witness below. -/
theorem invest_per_stock_once (env : DecisionEnv) (s : DecisionState) (d : ℕ)
    (p : Portfolio) (s' : DecisionState)
    (h : calc_portfolio env s d = .ok (some p, s')) :
    ∀ info ∈ p.stocks_selected,
      info.num =
        ((s.liquidity + sumCost p.stocks_settled) / p.stocks_selected.length) /
          info.price := by
  obtain ⟨htd, liq1, holds1, settled, liq2, holds2, sel, hst, hsel, hp, hs'⟩ :=
    calc_portfolio_inv env s d p s' h
  subst hp hs'
  dsimp only
  have h1 := settle_fold_liq env d _ _ _ _ _ _ _ hst
  rw [sumCost_nil] at h1
  rcases handle_selected_stocks_inv env d _ _ _ _ _ _ hsel with
    ⟨hsel0, rfl, rfl, rfl⟩ | ⟨hne, hbuy⟩
  · simp
  · have hids := buy_fold_ids env d _ _ _ _ _ _ _ _ hbuy
    simp only [List.map_nil, List.nil_append] at hids
    have hlen : sel.length = (get_select_stocks env s.stocks_hold_num holds1 d).length := by
      rw [← hids, List.length_map]
    intro info hinfo
    have hnum := buy_fold_num env d _ _ _ _ _ _ _ _ hbuy info hinfo
    simp only [List.not_mem_nil, false_or] at hnum
    have hliq1 : liq1 = s.liquidity + sumCost settled := by omega
    rw [hlen, ← hliq1]
    exact hnum.1

theorem invest_per_stock_once_witness :
    calc_portfolio envEx sEx 1 = .ok (some pEx, s1Ex) ∧
    pEx.stocks_selected.map (·.num) = [2, 1] ∧
    pEx.liquidity = 4 ∧
    ∀ info ∈ pEx.stocks_selected,
      info.num =
        ((sEx.liquidity + sumCost pEx.stocks_settled) / pEx.stocks_selected.length) /
          info.price :=
  ⟨by decide, by decide, by decide,
    invest_per_stock_once envEx sEx 1 pEx s1Ex (by decide)⟩

/-- C9.  The total buy cost of the selection phase never exceeds the
liquidity at the start of the phase (liquidity before the call plus the
settle proceeds), so the unsigned `liquidity -= num * price` subtractions
never underflow: the final liquidity plus the total buy cost equals the
phase-start liquidity exactly. -/
theorem selection_no_underflow (env : DecisionEnv) (s : DecisionState) (d : ℕ)
    (p : Portfolio) (s' : DecisionState)
    (h : calc_portfolio env s d = .ok (some p, s'))
    (hp : ∀ info ∈ p.stocks_selected, 1 ≤ info.price) :
    sumCost p.stocks_selected ≤ s.liquidity + sumCost p.stocks_settled ∧
    p.liquidity + sumCost p.stocks_selected = s.liquidity + sumCost p.stocks_settled := by
  obtain ⟨htd, liq1, holds1, settled, liq2, holds2, sel, hst, hsel, hpp, hs'⟩ :=
    calc_portfolio_inv env s d p s' h
  subst hpp hs'
  dsimp only
  have h1 := settle_fold_liq env d _ _ _ _ _ _ _ hst
  rw [sumCost_nil] at h1
  rcases handle_selected_stocks_inv env d _ _ _ _ _ _ hsel with
    ⟨hsel0, rfl, rfl, rfl⟩ | ⟨hne, hbuy⟩
  · rw [sumCost_nil]
    omega
  · have hinv : (get_select_stocks env s.stocks_hold_num holds1 d).length *
        (liq1 / (get_select_stocks env s.stocks_hold_num holds1 d).length) ≤ liq1 := by
      rw [Nat.mul_comm]
      exact Nat.div_mul_le_self liq1 _
    have h2 := buy_fold_liq env d _ _ _ _ _ _ _ _ hinv hbuy
    rw [sumCost_nil] at h2
    omega

theorem selection_no_underflow_witness :
    (∀ info ∈ pEx.stocks_selected, 1 ≤ info.price) ∧
    sumCost pEx.stocks_selected ≤ sEx.liquidity + sumCost pEx.stocks_settled ∧
    pEx.liquidity + sumCost pEx.stocks_selected =
      sEx.liquidity + sumCost pEx.stocks_settled :=
  ⟨by decide, selection_no_underflow envEx sEx 1 pEx s1Ex (by decide) (by decide)⟩

/-! ### Claim theorem: the hold phase never needs the default record (C10) -/

/-- C10.  Within one `calc_portfolio` call on an error-free store, the
zero-valued default-record substitution of the hold phase is unreachable:
phase 1 (`has_trading_data`) checked a record exists at the date for every
held symbol, and the settle phase only removes holdings, so every query
the hold phase issues returns a record. -/
theorem hold_phase_no_default (env : DecisionEnv) (s : DecisionState) (d : ℕ)
    (liq1 : ℕ) (holds1 : List HoldEntry) (settled : List StockInfo)
    (htd : has_trading_data env s d = true)
    (hst : settle_fold env d (get_settle_stocks env s.stocks_hold d)
      s.liquidity s.stocks_hold [] = .ok (liq1, holds1, settled)) :
    ∀ e ∈ holds1, (env.query e.1 d).isSome = true := by
  intro e he
  have hsub := settle_fold_sublist env d _ _ _ _ _ _ _ hst
  have hmem : e ∈ s.stocks_hold := hsub.subset he
  unfold has_trading_data at htd
  exact List.all_eq_true.1 htd e hmem

theorem hold_phase_no_default_witness :
    has_trading_data envEx sHold 1 = true ∧
    settle_fold envEx 1 (get_settle_stocks envEx sHold.stocks_hold 1)
      sHold.liquidity sHold.stocks_hold [] = .ok (0, sHold.stocks_hold, []) ∧
    ∀ e ∈ sHold.stocks_hold, (envEx.query e.1 1).isSome = true :=
  ⟨by decide, by decide,
    hold_phase_no_default envEx sHold 1 0 sHold.stocks_hold [] (by decide) (by decide)⟩

/-! ### Claim theorem: ranking of the selection (C5) -/

theorem handle_hold_stocks_ids (env : DecisionEnv) (d : ℕ) (holds : List HoldEntry) :
    (handle_hold_stocks env d holds).map (·.stock_id) = holds.map (·.1) := by
  simp [handle_hold_stocks, List.map_map]

/-- C5.  The snapshot's `stocks_selected` is ordered by non-increasing
score under the `(point, trading_volume)` lexicographic total order, and
no selected symbol has a non-positive `point` or is already held (it does
not appear among the snapshot's `stocks_hold`). -/
theorem selection_ranked (env : DecisionEnv) (s : DecisionState) (d : ℕ)
    (p : Portfolio) (s' : DecisionState)
    (h : calc_portfolio env s d = .ok (some p, s')) :
    p.stocks_selected.Pairwise (fun a b =>
      (env.analyze b.stock_id d).point < (env.analyze a.stock_id d).point ∨
      ((env.analyze b.stock_id d).point = (env.analyze a.stock_id d).point ∧
        (env.analyze b.stock_id d).trading_volume ≤
          (env.analyze a.stock_id d).trading_volume)) ∧
    ∀ info ∈ p.stocks_selected,
      0 < (env.analyze info.stock_id d).point ∧
      ∀ info2 ∈ p.stocks_hold, info2.stock_id ≠ info.stock_id := by
  obtain ⟨htd, liq1, holds1, settled, liq2, holds2, sel, hst, hsel, hp, hs'⟩ :=
    calc_portfolio_inv env s d p s' h
  subst hp hs'
  dsimp only
  rcases handle_selected_stocks_inv env d _ _ _ _ _ _ hsel with
    ⟨hsel0, rfl, rfl, rfl⟩ | ⟨hne, hbuy⟩
  · simp
  · have hids := buy_fold_ids env d _ _ _ _ _ _ _ _ hbuy
    simp only [List.map_nil, List.nil_append] at hids
    constructor
    · have hpw := get_select_stocks_pairwise env s.stocks_hold_num holds1 d
      rw [← hids] at hpw
      have := List.pairwise_map.1 hpw
      refine this.imp ?_
      intro a b hab
      rw [Score.le_iff] at hab
      exact hab
    · intro info hinfo
      have hmemid : info.stock_id ∈ get_select_stocks env s.stocks_hold_num holds1 d := by
        rw [← hids]
        exact List.mem_map_of_mem _ hinfo
      obtain ⟨hpt, hnh⟩ := get_select_stocks_mem env s.stocks_hold_num holds1 d _ hmemid
      refine ⟨hpt, ?_⟩
      intro info2 hinfo2 heq
      apply hnh
      rw [← handle_hold_stocks_ids env d holds1, ← heq]
      exact List.mem_map_of_mem _ hinfo2

theorem selection_ranked_witness :
    pEx.stocks_selected.Pairwise (fun a b =>
      (envEx.analyze b.stock_id 1).point < (envEx.analyze a.stock_id 1).point ∨
      ((envEx.analyze b.stock_id 1).point = (envEx.analyze a.stock_id 1).point ∧
        (envEx.analyze b.stock_id 1).trading_volume ≤
          (envEx.analyze a.stock_id 1).trading_volume)) ∧
    ∀ info ∈ pEx.stocks_selected,
      0 < (envEx.analyze info.stock_id 1).point ∧
      ∀ info2 ∈ pEx.stocks_hold, info2.stock_id ≠ info.stock_id :=
  selection_ranked envEx sEx 1 pEx s1Ex (by decide)

/-! ### Claim theorem: the capacity bound (C8) -/

/-- When `calc_portfolio` returns no snapshot the engine state is
untouched (the call returns before any phase runs). -/
theorem calc_portfolio_none_state (env : DecisionEnv) (s : DecisionState) (d : ℕ)
    (s' : DecisionState) (h : calc_portfolio env s d = .ok (none, s')) :
    s' = s ∧ has_trading_data env s d = false := by
  unfold calc_portfolio at h
  split_ifs at h with htd
  · simp only [Except.ok.injEq, Prod.mk.injEq] at h
    exact ⟨h.2.symm, htd⟩
  · exfalso
    cases hst : settle_fold env d (get_settle_stocks env s.stocks_hold d)
        s.liquidity s.stocks_hold [] with
    | error e => simp [hst] at h
    | ok v =>
      obtain ⟨liq1, holds1, settled⟩ := v
      simp only [hst] at h
      cases hsel : handle_selected_stocks env d s.stocks_hold_num liq1 holds1 with
      | error e => simp [hsel] at h
      | ok w =>
        obtain ⟨liq2, holds2, sel⟩ := w
        simp [hsel] at h

/-- One `calc_portfolio` call preserves `|holdings| ≤ capacity`, keeps the
capacity, and every snapshot it produces satisfies
`|stocks_hold| + |stocks_selected| ≤ capacity`. -/
theorem calc_portfolio_capacity (env : DecisionEnv) (s : DecisionState) (d : ℕ)
    (r : Option Portfolio) (s' : DecisionState)
    (hcap : s.stocks_hold.length ≤ s.stocks_hold_num)
    (h : calc_portfolio env s d = .ok (r, s')) :
    s'.stocks_hold.length ≤ s'.stocks_hold_num ∧
    s'.stocks_hold_num = s.stocks_hold_num ∧
    ∀ p, r = some p →
      p.stocks_hold.length + p.stocks_selected.length ≤ s.stocks_hold_num := by
  cases r with
  | none =>
    obtain ⟨rfl, -⟩ := calc_portfolio_none_state env s d s' h
    exact ⟨hcap, rfl, fun p hp => by simp at hp⟩
  | some p =>
    obtain ⟨htd, liq1, holds1, settled, liq2, holds2, sel, hst, hsel, hp, hs'⟩ :=
      calc_portfolio_inv env s d p s' h
    subst hp hs'
    have hsub := settle_fold_sublist env d _ _ _ _ _ _ _ hst
    have hlen1 : holds1.length ≤ s.stocks_hold.length := hsub.length_le
    rcases handle_selected_stocks_inv env d _ _ _ _ _ _ hsel with
      ⟨hsel0, rfl, rfl, rfl⟩ | ⟨hne, hbuy⟩
    · refine ⟨by simpa using hlen1.trans hcap, rfl, ?_⟩
      intro p hp
      simp only [Option.some.injEq] at hp
      subst hp
      simp only [handle_hold_stocks, List.length_map, List.length_nil]
      omega
    · have hsl := get_select_stocks_length env s.stocks_hold_num holds1 d
        (hlen1.trans hcap)
      have hids := buy_fold_ids env d _ _ _ _ _ _ _ _ hbuy
      simp only [List.map_nil, List.nil_append] at hids
      have hsellen : sel.length = (get_select_stocks env s.stocks_hold_num holds1 d).length := by
        rw [← hids, List.length_map]
      have hh2 := buy_fold_holds_length env d _ _ _ _ _ _ _ _ hbuy
      refine ⟨?_, rfl, ?_⟩
      · dsimp only
        omega
      · intro p hp
        simp only [Option.some.injEq] at hp
        subst hp
        simp only [handle_hold_stocks, List.length_map]
        omega

/-- The capacity bound along a run, with the `|holdings| ≤ capacity`
invariant carried explicitly. -/
theorem run_capacity_aux (env : DecisionEnv) :
    ∀ (dates : List ℕ) (s sf : DecisionState) (ps : List Portfolio),
      s.stocks_hold.length ≤ s.stocks_hold_num →
      run_dates env dates s = .ok (sf, ps) →
      ∀ p ∈ ps, p.stocks_hold.length + p.stocks_selected.length ≤ s.stocks_hold_num
  | [], s, sf, ps => by
    intro hcap h
    unfold run_dates at h
    simp only [Except.ok.injEq, Prod.mk.injEq] at h
    obtain ⟨-, rfl⟩ := h
    simp
  | d :: rest, s, sf, ps => by
    intro hcap h
    unfold run_dates at h
    cases hc : calc_portfolio env s d with
    | error e => simp [hc] at h
    | ok v =>
      obtain ⟨r, s'⟩ := v
      simp only [hc] at h
      obtain ⟨hc1, hc2, hc3⟩ := calc_portfolio_capacity env s d r s' hcap hc
      cases r with
      | none =>
        intro p hp
        have := run_capacity_aux env rest s' sf ps hc1 h p hp
        omega
      | some p0 =>
        cases hr : run_dates env rest s' with
        | error e => simp [hr] at h
        | ok w =>
          obtain ⟨sf2, ps2⟩ := w
          simp only [hr, Except.ok.injEq, Prod.mk.injEq] at h
          obtain ⟨rfl, rfl⟩ := h
          intro p hp
          rcases List.mem_cons.1 hp with rfl | hp
          · exact hc3 p rfl
          · have := run_capacity_aux env rest s' sf2 ps2 hc1 hr p hp
            omega

/-- C8.  Over any sequence of assessment dates starting from an empty
holdings map, every snapshot the driver loop collects satisfies
`|stocks_hold| + |stocks_selected| ≤ capacity` after the selection
phase. -/
theorem capacity_invariant (env : DecisionEnv) (dates : List ℕ) (cap liq : ℕ)
    (sf : DecisionState) (ps : List Portfolio)
    (h : run_dates env dates
      { stocks_hold_num := cap, liquidity := liq, stocks_hold := [] } = .ok (sf, ps)) :
    ∀ p ∈ ps, p.stocks_hold.length + p.stocks_selected.length ≤ cap :=
  run_capacity_aux env dates _ sf ps (by simp) h

theorem capacity_invariant_witness :
    pEx.stocks_hold.length + pEx.stocks_selected.length ≤ 5 :=
  capacity_invariant envEx [1, 2] 5 20
    { stocks_hold_num := 5, liquidity := 4, stocks_hold := [("A", 1, 2), ("B", 1, 1)] }
    [pEx,
     { date := 2, stocks_selected := [],
       stocks_hold := [{ stock_id := "A", num := 2, price := 4 },
                       { stock_id := "B", num := 1, price := 8 }],
       stocks_settled := [], liquidity := 4 }]
    (by decide) pEx (by decide)

/-! ### Claim theorem: when `calc_portfolio` returns a snapshot (C3) -/

theorem lookupKey_mem (sid : String) (l : List HoldEntry)
    (h : sid ∈ l.map (·.1)) : ∃ v, lookupKey sid l = some v := by
  induction l with
  | nil => simp at h
  | cons e t ih =>
    by_cases he : e.1 = sid
    · refine ⟨e.2, ?_⟩
      simp only [lookupKey]
      rw [List.find?_cons_of_pos _ (by simpa using he)]
      rfl
    · have hmem : sid ∈ t.map (·.1) := by
        rcases List.mem_map.1 h with ⟨e', he', rfl⟩
        rcases List.mem_cons.1 he' with rfl | hmem2
        · exact absurd rfl he
        · exact List.mem_map_of_mem _ hmem2
      obtain ⟨v, hv⟩ := ih hmem
      refine ⟨v, ?_⟩
      simp only [lookupKey] at hv ⊢
      rw [List.find?_cons_of_neg _ (by simpa using he)]
      exact hv

theorem lookupKey_eraseKey_ne (sid sid' : String) (l : List HoldEntry)
    (h : sid' ≠ sid) : lookupKey sid' (eraseKey sid l) = lookupKey sid' l := by
  induction l with
  | nil => rfl
  | cons e t ih =>
    by_cases he : e.1 = sid
    · have hq : ¬ e.1 = sid' := fun hc => h (hc.symm.trans he)
      rw [show eraseKey sid (e :: t) = eraseKey sid t by
        simp [eraseKey, List.filter_cons, he]]
      rw [ih]
      simp only [lookupKey]
      rw [List.find?_cons_of_neg _ (by simpa using hq)]
    · rw [show eraseKey sid (e :: t) = e :: eraseKey sid t by
        simp [eraseKey, List.filter_cons, he]]
      by_cases he2 : e.1 = sid'
      · simp only [lookupKey]
        rw [List.find?_cons_of_pos _ (by simpa using he2),
          List.find?_cons_of_pos _ (by simpa using he2)]
      · simp only [lookupKey] at ih ⊢
        rw [List.find?_cons_of_neg _ (by simpa using he2),
          List.find?_cons_of_neg _ (by simpa using he2)]
        exact ih

theorem settle_fold_ok (env : DecisionEnv) (d : ℕ) :
    ∀ (ids : List String) (liq : ℕ) (holds : List HoldEntry) (acc : List StockInfo),
      ids.Nodup →
      (∀ sid ∈ ids, ∃ v, lookupKey sid holds = some v) →
      (∀ sid ∈ ids, (env.query sid d).isSome = true) →
      ∃ L H A, settle_fold env d ids liq holds acc = .ok (L, H, A)
  | [], liq, holds, acc => fun _ _ _ => ⟨liq, holds, acc, rfl⟩
  | sid :: rest, liq, holds, acc => by
    intro hnd hlk hq
    obtain ⟨v, hv⟩ := hlk sid (by simp)
    obtain ⟨r, hr⟩ := Option.isSome_iff_exists.1 (hq sid (by simp))
    have hnd' := (List.nodup_cons.1 hnd).2
    have hne : ∀ sid' ∈ rest, sid' ≠ sid := by
      intro sid' hmem heq
      exact (List.nodup_cons.1 hnd).1 (heq ▸ hmem)
    obtain ⟨L, H, A, hok⟩ := settle_fold_ok env d rest (liq + v.2 * stock_price r)
      (eraseKey sid holds)
      (acc ++ [{ stock_id := sid, num := v.2, price := stock_price r }])
      hnd'
      (fun sid' hmem => by
        rw [lookupKey_eraseKey_ne sid sid' holds (hne sid' hmem)]
        exact hlk sid' (List.mem_cons_of_mem _ hmem))
      (fun sid' hmem => hq sid' (List.mem_cons_of_mem _ hmem))
    refine ⟨L, H, A, ?_⟩
    unfold settle_fold
    simp only [hv, hr]
    exact hok

theorem buy_fold_ok_iff (env : DecisionEnv) (d invest : ℕ) :
    ∀ (ids : List String) (liq : ℕ) (holds : List HoldEntry) (acc : List StockInfo),
      (∃ L H A, buy_fold env d invest ids liq holds acc = .ok (L, H, A)) ↔
      ∀ sid ∈ ids, ∃ r, env.query sid d = some r ∧ 0 < stock_price r
  | [], liq, holds, acc => by
    simp only [buy_fold, Except.ok.injEq, List.not_mem_nil, false_implies, implies_true,
      iff_true]
    exact ⟨liq, holds, acc, rfl⟩
  | sid :: rest, liq, holds, acc => by
    constructor
    · rintro ⟨L, H, A, hok⟩
      unfold buy_fold at hok
      cases hq : env.query sid d with
      | none => simp [hq] at hok
      | some r =>
        simp only [hq] at hok
        split_ifs at hok with hp
        intro sid' hmem
        rcases List.mem_cons.1 hmem with rfl | hmem
        · exact ⟨r, hq, Nat.pos_of_ne_zero hp⟩
        · exact (buy_fold_ok_iff env d invest rest _ _ _).1 ⟨L, H, A, hok⟩ sid' hmem
    · intro hall
      obtain ⟨r, hq, hp⟩ := hall sid (by simp)
      obtain ⟨L, H, A, hok⟩ := (buy_fold_ok_iff env d invest rest
        (liq - invest / stock_price r * stock_price r)
        (insertKey sid (d, invest / stock_price r) holds)
        (acc ++ [{ stock_id := sid, num := invest / stock_price r,
                   price := stock_price r }])).2
        (fun sid' hmem => hall sid' (List.mem_cons_of_mem _ hmem))
      refine ⟨L, H, A, ?_⟩
      unfold buy_fold
      simp only [hq]
      rw [if_neg (by omega)]
      exact hok

theorem handle_selected_stocks_ok (env : DecisionEnv) (d cap liq : ℕ)
    (holds : List HoldEntry)
    (hall : ∀ sid ∈ get_select_stocks env cap holds d,
      ∃ r, env.query sid d = some r ∧ 0 < stock_price r) :
    ∃ L H A, handle_selected_stocks env d cap liq holds = .ok (L, H, A) := by
  simp only [handle_selected_stocks]
  split_ifs with he
  · exact ⟨liq, holds, [], rfl⟩
  · exact (buy_fold_ok_iff env d _ _ _ _ _).2 hall

theorem handle_selected_stocks_ok_rev (env : DecisionEnv) (d cap liq : ℕ)
    (holds : List HoldEntry) (L : ℕ) (H : List HoldEntry) (A : List StockInfo)
    (h : handle_selected_stocks env d cap liq holds = .ok (L, H, A)) :
    ∀ sid ∈ get_select_stocks env cap holds d,
      ∃ r, env.query sid d = some r ∧ 0 < stock_price r := by
  rcases handle_selected_stocks_inv env d cap liq holds L H A h with
    ⟨he, -, -, -⟩ | ⟨-, hbuy⟩
  · rw [he]; simp
  · exact (buy_fold_ok_iff env d _ _ _ _ _).1 ⟨L, H, A, hbuy⟩

/-- C3 (amended).  Assuming the holdings map is a map (no duplicate keys):
when some held symbol has no record at the date, `calc_portfolio` returns
no snapshot and leaves the state untouched; when every held symbol has a
record, it returns a snapshot **iff** every symbol the selection phase
picks also has a record with a nonzero integer price at that date
(otherwise the call aborts with `BackendRecordNotFound`, resp. the Rust
division-by-zero panic — neither a store nor a strategy error). -/
theorem calc_portfolio_some_iff (env : DecisionEnv) (s : DecisionState) (d : ℕ)
    (hnodup : (s.stocks_hold.map (·.1)).Nodup) :
    (has_trading_data env s d = false → calc_portfolio env s d = .ok (none, s)) ∧
    (has_trading_data env s d = true →
      ((∃ p s', calc_portfolio env s d = .ok (some p, s')) ↔
        ∀ sid ∈ get_select_stocks env s.stocks_hold_num (settle_holds env s d) d,
          ∃ r, env.query sid d = some r ∧ 0 < stock_price r)) := by
  constructor
  · intro htd
    simp [calc_portfolio, htd]
  · intro htd
    have hmem : ∀ sid ∈ get_settle_stocks env s.stocks_hold d,
        ∃ v, lookupKey sid s.stocks_hold = some v := by
      intro sid hsid
      refine lookupKey_mem sid s.stocks_hold ?_
      obtain ⟨e, he, rfl⟩ := List.mem_map.1 hsid
      exact List.mem_map_of_mem _ (List.mem_of_mem_filter he)
    have hq : ∀ sid ∈ get_settle_stocks env s.stocks_hold d,
        (env.query sid d).isSome = true := by
      intro sid hsid
      obtain ⟨e, he, rfl⟩ := List.mem_map.1 hsid
      exact List.all_eq_true.1 htd e (List.mem_of_mem_filter he)
    have hnd : (get_settle_stocks env s.stocks_hold d).Nodup := by
      unfold get_settle_stocks
      exact hnodup.sublist ((List.filter_sublist _).map _)
    obtain ⟨L, H, A, hst⟩ :=
      settle_fold_ok env d _ s.liquidity s.stocks_hold [] hnd hmem hq
    have hH : H = settle_holds env s d :=
      settle_fold_holds env d _ _ _ _ _ _ _ hst
    subst hH
    constructor
    · rintro ⟨p, s', hok⟩
      obtain ⟨-, liq1, holds1, settled, liq2, holds2, sel, hst', hsel', -, -⟩ :=
        calc_portfolio_inv env s d p s' hok
      rw [hst] at hst'
      simp only [Except.ok.injEq, Prod.mk.injEq] at hst'
      obtain ⟨rfl, rfl, rfl⟩ := hst'
      exact handle_selected_stocks_ok_rev env d _ _ _ _ _ _ hsel'
    · intro hall
      obtain ⟨L2, H2, A2, hok⟩ :=
        handle_selected_stocks_ok env d s.stocks_hold_num L (settle_holds env s d) hall
      refine ⟨{ date := d, stocks_selected := A2,
                stocks_hold := handle_hold_stocks env d (settle_holds env s d),
                stocks_settled := A, liquidity := L2 },
              { stocks_hold_num := s.stocks_hold_num, liquidity := L2,
                stocks_hold := H2 }, ?_⟩
      unfold calc_portfolio
      rw [if_neg (by simp [htd])]
      simp only [hst, hok]

theorem calc_portfolio_some_iff_counterexample :
    has_trading_data envC3 sC3 0 = true ∧
    (∀ e ∈ sC3.stocks_hold, (envC3.query e.1 0).isSome = true) ∧
    calc_portfolio envC3 sC3 0 = .error .backendRecordNotFound := by
  refine ⟨by decide, by decide, by decide⟩

theorem calc_portfolio_some_iff_witness :
    (has_trading_data envEx sEx 1 = false → calc_portfolio envEx sEx 1 = .ok (none, sEx)) ∧
    (has_trading_data envEx sEx 1 = true →
      ((∃ p s', calc_portfolio envEx sEx 1 = .ok (some p, s')) ↔
        ∀ sid ∈ get_select_stocks envEx sEx.stocks_hold_num (settle_holds envEx sEx 1) 1,
          ∃ r, envEx.query sid 1 = some r ∧ 0 < stock_price r)) :=
  calc_portfolio_some_iff envEx sEx 1 (by decide)

/-! ### Claim theorem: the indicator transform yields one view per record from the P-th on (C7) -/

theorem transform_go_length (smaF sdF : List RawData → ℚ) (full : List RawData) :
    ∀ (l : List RawData) (idx : ℕ),
      (transform_go smaF sdF full idx l).length = idx + l.length - max idx (PERIOD - 1)
  | [], idx => by
    simp only [transform_go, List.length_nil]
    omega
  | record :: rest, idx => by
    unfold transform_go
    split_ifs with h
    · have ih := transform_go_length smaF sdF full rest (idx + 1)
      simp only [List.length_cons, ih]
      omega
    · have ih := transform_go_length smaF sdF full rest (idx + 1)
      simp only [List.length_cons, ih]
      omega

theorem transform_go_dates (smaF sdF : List RawData → ℚ) (full : List RawData) :
    ∀ (l : List RawData) (idx : ℕ),
      (transform_go smaF sdF full idx l).map (·.date) =
        (l.drop (PERIOD - 1 - idx)).map (·.date)
  | [], idx => by simp [transform_go]
  | record :: rest, idx => by
    unfold transform_go
    split_ifs with h
    · have ih := transform_go_dates smaF sdF full rest (idx + 1)
      rw [show PERIOD - 1 - idx = 0 by omega] at *
      rw [show PERIOD - 1 - (idx + 1) = 0 by omega] at ih
      simpa using ih
    · have ih := transform_go_dates smaF sdF full rest (idx + 1)
      rw [show PERIOD - 1 - idx = (PERIOD - 1 - (idx + 1)) + 1 by omega]
      simpa using ih

/-- C7.  For every input sequence of `n` records (and any streaming
statistics `smaF`, `sdF`), the transform yields exactly `n + 1 - PERIOD`
views (truncated subtraction, i.e. `max 0 (n - P + 1)`), one per input
record from the `PERIOD`-th on: the views' dates are the dates of
`records.drop (PERIOD - 1)`.  In particular 29 records yield no view and
30 records yield exactly one. -/
theorem transform_counts (smaF sdF : List RawData → ℚ) (records : List RawData) :
    (transform smaF sdF records).length = records.length + 1 - PERIOD ∧
    (transform smaF sdF records).map (·.date) =
      (records.drop (PERIOD - 1)).map (·.date) := by
  constructor
  · rw [transform, transform_go_length]
    have hp : (1 : ℕ) ≤ PERIOD := by norm_num [PERIOD]
    omega
  · rw [transform, transform_go_dates, Nat.sub_zero]

/-! ### Claim theorem: what `settle_check` actually returns (C2) -/

theorem settle_loop_iff :
    ∀ (l : List BollingerBandView) (count : ℕ), count < CONT_LOW_LIMIT →
      (settle_loop l count = true ↔
        CONT_LOW_LIMIT ≤ count +
          (l.takeWhile (fun v => decide (weighted_price v < v.sma + v.sd))).length)
  | [], count => by
    intro hc
    simp only [settle_loop, List.takeWhile_nil, List.length_nil, Nat.add_zero,
      Bool.false_eq_true, false_iff]
    omega
  | v :: rest, count => by
    intro hc
    unfold settle_loop
    by_cases hbr : v.sma + v.sd ≤ weighted_price v
    · rw [if_pos hbr]
      rw [List.takeWhile_cons_of_neg (by simpa using not_lt.2 hbr)]
      simp only [List.length_nil, Nat.add_zero, Bool.false_eq_true, false_iff]
      omega
    · rw [if_neg hbr]
      rw [List.takeWhile_cons_of_pos (by simpa using lt_of_not_le hbr)]
      by_cases h3 : count + 1 = CONT_LOW_LIMIT
      · rw [if_pos h3]
        simp only [List.length_cons, true_iff]
        omega
      · rw [if_neg h3]
        rw [settle_loop_iff rest (count + 1) (by omega)]
        simp only [List.length_cons]
        omega

/-- C2 (amended).  `settle_check`, on a fetched view window, returns true
iff the window is non-empty, its last view's date is `assess_date`, and —
scanning backward from `assess_date` — the run of consecutive views whose
weighted price `low + 0.75·(high−low)` is strictly below `sma + sd`
reaches `CONT_LOW_LIMIT` (3).  It performs no SMA comparison: the
trend-reversal rule of the specification is not implemented. -/
theorem settle_check_views_iff (views : List BollingerBandView) (assess_date : ℕ) :
    settle_check_views views assess_date = true ↔
      views ≠ [] ∧ views.getLast?.map (·.date) = some assess_date ∧
      CONT_LOW_LIMIT ≤ (views.reverse.takeWhile
        (fun v => decide (weighted_price v < v.sma + v.sd))).length := by
  unfold settle_check_views
  split_ifs with h1 h2
  · rw [List.length_eq_zero] at h1
    simp [h1]
  · simp only [Bool.false_eq_true, false_iff]
    intro hcon
    exact h2 hcon.2.1
  · rw [settle_loop_iff views.reverse 0 (by norm_num [CONT_LOW_LIMIT])]
    rw [not_not] at h2
    have hne : views ≠ [] := fun hcon => h1 (by simp [hcon])
    simp [hne, h2]

/-- C2 counterexample: a two-view window ending at the assessment date
whose first SMA (10) exceeds the SMA at the assessment date (5) — the
claimed trend-reversal exit — on which `settle_check` nevertheless
returns false, because the last view's weighted price (20) is not below
`sma + sd` (6) and the backward scan stops at once. -/
theorem settle_check_views_counterexample :
    viewsC2.head? = some vC2a ∧
    viewsC2.getLast? = some vC2b ∧
    viewsC2.getLast?.map (·.date) = some 2 ∧
    vC2b.sma < vC2a.sma ∧
    settle_check_views viewsC2 2 = false := by
  refine ⟨rfl, rfl, rfl, by decide, by decide⟩

/-! ### Claim theorem: what `analyze` actually scores (C6) -/

theorem analyze_loop_eq (last_view : BollingerBandView) :
    ∀ (l : List BollingerBandView) (tmp_sd : ℚ) (total zone : ℕ) (w : BollingerBandView),
      total < ANALYZE_RANGE →
      ANALYZE_RANGE - total ≤ l.length →
      (l.take (ANALYZE_RANGE - total)).getLast? = some w →
      (∀ v ∈ l.take (ANALYZE_RANGE - total), rep_price v ≠ 0) →
      List.Chain' (fun a b => b.sd ≤ a.sd) (l.take (ANALYZE_RANGE - total)) →
      (∀ v ∈ l.take 1, v.sd ≤ tmp_sd) →
      analyze_loop last_view l tmp_sd total zone =
        some ((((zone + (l.take (ANALYZE_RANGE - total)).countP in_buy_zone : ℕ) : ℚ)) /
                ((ANALYZE_RANGE : ℕ) : ℚ) * 100,
              (last_view.sma - w.sma) / w.sma * 100)
  | [], tmp_sd, total, zone, w => by
    intro h1 h2 _ _ _ _
    simp only [List.length_nil] at h2
    omega
  | v :: rest, tmp_sd, total, zone, w => by
    intro h1 h2 h3 h4 h5 h6
    have hk1 : 1 ≤ ANALYZE_RANGE - total := by omega
    have htake : (v :: rest).take (ANALYZE_RANGE - total) =
        v :: rest.take (ANALYZE_RANGE - total - 1) := by
      obtain ⟨n, hn⟩ : ∃ n, ANALYZE_RANGE - total = n + 1 :=
        ⟨ANALYZE_RANGE - total - 1, by omega⟩
      rw [hn, List.take_succ_cons, Nat.add_sub_cancel]
    rw [htake] at h3 h4 h5 ⊢
    have hp : rep_price v ≠ 0 := h4 v (by simp)
    have hsdv : v.sd ≤ tmp_sd := h6 v (by simp)
    simp only [analyze_loop]
    rw [if_neg hp, if_neg (not_lt.2 hsdv)]
    by_cases hA : total + 1 = ANALYZE_RANGE
    · rw [if_pos hA]
      have hk0 : ANALYZE_RANGE - total - 1 = 0 := by omega
      rw [hk0, List.take_zero] at h3 ⊢
      simp only [List.getLast?_singleton, Option.some.injEq] at h3
      subst h3
      have hcount : (v :: ([] : List BollingerBandView)).countP in_buy_zone =
          if in_buy_zone v then 1 else 0 := by
        by_cases hb : in_buy_zone v <;> simp [hb, List.countP_cons]
      rw [hcount]
      have hz : (if in_buy_zone v then zone + 1 else zone) =
          zone + (if in_buy_zone v then 1 else 0) := by
        by_cases hb : in_buy_zone v <;> simp [hb]
      rw [hz, hA]
    · rw [if_neg hA]
      have hlt : total + 1 < ANALYZE_RANGE := by omega
      have hlen : ANALYZE_RANGE - total - 1 ≤ rest.length := by
        simp only [List.length_cons] at h2
        omega
      have hk2 : 1 ≤ ANALYZE_RANGE - total - 1 := by omega
      cases rest with
      | nil =>
        simp only [List.length_nil] at hlen
        omega
      | cons u t =>
        have he : ANALYZE_RANGE - (total + 1) = ANALYZE_RANGE - total - 1 := by omega
        have htake2 : (u :: t).take (ANALYZE_RANGE - total - 1) =
            u :: t.take (ANALYZE_RANGE - total - 1 - 1) := by
          obtain ⟨n, hn⟩ : ∃ n, ANALYZE_RANGE - total - 1 = n + 1 :=
            ⟨ANALYZE_RANGE - total - 1 - 1, by omega⟩
          rw [hn, List.take_succ_cons, Nat.add_sub_cancel]
        rw [htake2] at h3 h4 h5 ⊢
        have hucond : u.sd ≤ v.sd := (List.chain'_cons.1 h5).1
        have hIH := analyze_loop_eq last_view (u :: t) v.sd (total + 1)
          (if in_buy_zone v then zone + 1 else zone) w hlt
          (by rw [he]; exact hlen)
          (by rw [he, htake2]; simpa using h3)
          (by
            rw [he, htake2]
            intro x hx
            exact h4 x (List.mem_cons_of_mem _ hx))
          (by
            rw [he, htake2]
            exact (List.chain'_cons.1 h5).2)
          (by
            intro x hx
            simp only [List.take_succ_cons, List.take_zero, List.mem_singleton] at hx
            subst hx
            exact hucond)
        rw [hIH, he, htake2]
        have hz : (if in_buy_zone v then zone + 1 else zone) +
            (u :: t.take (ANALYZE_RANGE - total - 1 - 1)).countP in_buy_zone =
            zone + (v :: u :: t.take (ANALYZE_RANGE - total - 1 - 1)).countP in_buy_zone := by
          simp only [List.countP_cons]
          by_cases hb : in_buy_zone v
          · simp [hb]
            omega
          · simp [hb]
        rw [hz]

/-- C6 (amended).  On a window of at least `ANALYZE_RANGE` views ending at
`assess_date` that passes the volatility filter (standard deviation
non-increasing walking backward over the last `ANALYZE_RANGE` views) and
whose last `ANALYZE_RANGE` representative prices are nonzero, with `w`
the `ANALYZE_RANGE`-th view from the end: if the rise ratio
`(last.sma − w.sma)/w.sma · 100` is ≤ 0 the neutral score is returned;
otherwise `point` is the **truncation toward zero** (`as i64`, not a
rounding) of `in_buy_zone_percentage · rise_ratio`, where the first
factor is the in-zone **fraction times 100**, and `trading_volume` is the
most recent view's volume. -/
theorem analyze_views_eq (views : List BollingerBandView) (assess_date : ℕ)
    (last_view w : BollingerBandView)
    (hlen : ANALYZE_RANGE ≤ views.length)
    (hlast : views.getLast? = some last_view)
    (hdate : last_view.date = assess_date)
    (hw : (views.reverse.take ANALYZE_RANGE).getLast? = some w)
    (hchain : List.Chain' (fun a b => b.sd ≤ a.sd) (views.reverse.take ANALYZE_RANGE))
    (hprice : ∀ v ∈ views.reverse.take ANALYZE_RANGE, rep_price v ≠ 0) :
    ((last_view.sma - w.sma) / w.sma * 100 ≤ 0 →
      analyze_views views assess_date = { point := 0, trading_volume := 0 }) ∧
    (0 < (last_view.sma - w.sma) / w.sma * 100 →
      analyze_views views assess_date =
        { point := f64_as_i64
            ((((views.reverse.take ANALYZE_RANGE).countP in_buy_zone : ℕ) : ℚ) /
                ((ANALYZE_RANGE : ℕ) : ℚ) * 100 *
              ((last_view.sma - w.sma) / w.sma * 100)),
          trading_volume := last_view.volume }) := by
  have hhead : ∀ v ∈ views.reverse.take 1, v.sd ≤ last_view.sd := by
    intro v hv
    have h1 : views.reverse.head? = some last_view := by
      rw [List.head?_reverse]
      exact hlast
    cases hrev : views.reverse with
    | nil =>
      rw [hrev] at hv
      simp at hv
    | cons a t =>
      rw [hrev] at hv h1
      simp only [List.head?_cons, Option.some.injEq] at h1
      simp only [List.take_succ_cons, List.take_zero, List.mem_singleton] at hv
      subst hv h1
      exact le_refl _
  have hloop := analyze_loop_eq last_view views.reverse last_view.sd 0 0 w
    (by norm_num [ANALYZE_RANGE])
    (by simpa using hlen)
    (by simpa using hw)
    (by simpa using hprice)
    (by simpa using hchain)
    hhead
  simp only [Nat.sub_zero, Nat.zero_add] at hloop
  unfold analyze_views
  rw [if_neg (by omega : ¬ views.length < ANALYZE_RANGE)]
  simp only [hlast]
  rw [if_neg (by simp [hdate])]
  simp only [hloop]
  constructor
  · intro hr
    rw [if_pos hr]
  · intro hr
    rw [if_neg (not_le.2 hr)]

theorem viewsC6_chain :
    List.Chain' (fun a b => b.sd ≤ a.sd) (viewsC6.reverse.take ANALYZE_RANGE) := by
  have h : viewsC6.reverse.take ANALYZE_RANGE =
      [viewC6 8 103 103, viewC6 7 100 100, viewC6 6 100 100, viewC6 5 100 100,
       viewC6 4 100 101, viewC6 3 100 101, viewC6 2 100 101, viewC6 1 100 101] := by decide
  rw [h]
  norm_num [List.chain'_cons, viewC6]

/-- C6 counterexample: an eight-view window passing the volatility filter
with in-zone fraction 1/2 and rise ratio 3 (percent).  The code's `point`
is `(50 · 3) as i64 = 150` — the in-zone percentage times the rise ratio,
truncated — whereas the claim's `round(in_buy_zone_ratio · rise_ratio)`
with the ratio a fraction is `round(0.5 · 3) = 2 ≠ 150`. -/
theorem analyze_views_counterexample :
    analyze_views viewsC6 8 = { point := 150, trading_volume := 7 } ∧
    viewsC6.length = ANALYZE_RANGE ∧
    viewsC6.getLast?.map (·.date) = some 8 ∧
    List.Chain' (fun a b => b.sd ≤ a.sd) (viewsC6.reverse.take ANALYZE_RANGE) ∧
    (viewsC6.reverse.take ANALYZE_RANGE).countP in_buy_zone = 4 ∧
    (viewsC6.reverse.take ANALYZE_RANGE).getLast? = some (viewC6 1 100 101) ∧
    ((viewC6 8 103 103).sma - (viewC6 1 100 101).sma) / (viewC6 1 100 101).sma * 100 = 3 ∧
    round_rat ((4 / 8 : ℚ) * 3) = 2 ∧
    (150 : ℤ) ≠ 2 := by
  refine ⟨by decide, by decide, by decide, viewsC6_chain, by decide, by decide,
    by decide, by decide, by decide⟩

theorem analyze_views_eq_witness :
    analyze_views viewsC6 8 =
      { point := f64_as_i64
          ((((viewsC6.reverse.take ANALYZE_RANGE).countP in_buy_zone : ℕ) : ℚ) /
              ((ANALYZE_RANGE : ℕ) : ℚ) * 100 *
            (((viewC6 8 103 103).sma - (viewC6 1 100 101).sma) /
              (viewC6 1 100 101).sma * 100)),
        trading_volume := (viewC6 8 103 103).volume } :=
  (analyze_views_eq viewsC6 8 (viewC6 8 103 103) (viewC6 1 100 101)
    (by decide) (by decide) (by decide) (by decide) viewsC6_chain
    (by decide)).2 (by decide)

end Veronica
